import Mathlib

/-!
Verification development for the Gitter repository (a small git-like
version-control core written in Go, package `internal`).

The definitions below are a shallow embedding of the Go source:

* `CalculateHash` / `hashFile`  — `crypto/sha1` digests, hex-encoded
  (repository.go, `CalculateHash`, `hashFile`);
* the JSON serialization of `IndexEntry` lists and `Commit` records
  (Go `encoding/json` on the structs of repository.go, with their
  struct-tag field order);
* `LoadIndex`, `SaveIndex`, `AddFile`, `GetCurrentHead`, `UpdateHead`,
  `UpdateLog` (repository.go);
* `statusBuckets`/`ShowStatus`, `CommitChanges`, `ShowDiff`/`showFileDiff`,
  `ShowLog` (the tree-storing `CommitChanges`/`showFileDiff` variant of
  operations.go — the variant whose behaviour the repository's own tests
  in operations_test.go exercise; the superseded draft in the other copy
  of operations.go differs only inside `showFileDiff` and in not storing
  the tree object).

The filesystem is modelled as an explicit `RepoState` record holding the
working tree (relative path ↦ content), the working tree's directories,
the object store (name ↦ bytes), the bytes of `.gitter/index`, the
contents of `refs/heads/main`, and the log.  Machine integers are `Nat`
with explicit `% 2^32` where SHA-1 overflows.
-/

namespace Gitter

/-! ## SHA-1 (crypto/sha1), over byte lists, words as `Nat` mod 2^32 -/

/-- Left-rotation of a 32-bit word represented as a `Nat < 2^32`. -/
def rotl (n x : Nat) : Nat :=
  ((x <<< n) % 4294967296) ||| (x >>> (32 - n))

/-- Big-endian 4-byte groups to 32-bit words. -/
def toWords : List Nat → List Nat
  | a :: b :: c :: d :: rest => (((a * 256 + b) * 256 + c) * 256 + d) :: toWords rest
  | _ => []

/-- Split a word list into 16-word blocks (input length is a multiple of 16). -/
def chunk16 : List Nat → List (List Nat)
  | w0 :: w1 :: w2 :: w3 :: w4 :: w5 :: w6 :: w7 ::
    w8 :: w9 :: w10 :: w11 :: w12 :: w13 :: w14 :: w15 :: rest =>
      [w0, w1, w2, w3, w4, w5, w6, w7, w8, w9, w10, w11, w12, w13, w14, w15]
        :: chunk16 rest
  | _ => []

/-- 8-byte big-endian encoding of the bit length. -/
def be8 (n : Nat) : List Nat :=
  [n >>> 56 % 256, n >>> 48 % 256, n >>> 40 % 256, n >>> 32 % 256,
   n >>> 24 % 256, n >>> 16 % 256, n >>> 8 % 256, n % 256]

/-- SHA-1 padding: append 0x80, zeros to 56 mod 64, then the 64-bit bit length. -/
def padMessage (msg : List Nat) : List Nat :=
  let len := msg.length
  msg ++ 128 :: List.replicate ((119 - len % 64) % 64) 0 ++ be8 (len * 8)

/-- Extend a 16-word block schedule by `k` further words. -/
def extendSchedule : List Nat → Nat → List Nat
  | w, 0 => w
  | w, k + 1 =>
      let l := w.length
      extendSchedule
        (w ++ [rotl 1 (((w.getD (l - 3) 0 ^^^ w.getD (l - 8) 0) ^^^
                        w.getD (l - 14) 0) ^^^ w.getD (l - 16) 0)]) k

/-- Round function and constant for round `t`. -/
def fk (t b c d : Nat) : Nat × Nat :=
  if t < 20 then ((b &&& c) ||| ((4294967295 ^^^ b) &&& d), 1518500249)
  else if t < 40 then ((b ^^^ c) ^^^ d, 1859775393)
  else if t < 60 then ((b &&& c) ||| ((b &&& d) ||| (c &&& d)), 2400959708)
  else ((b ^^^ c) ^^^ d, 3395469782)

/-- One SHA-1 compression step. -/
def sha1Step (w : List Nat) (st : Nat × Nat × Nat × Nat × Nat) (t : Nat) :
    Nat × Nat × Nat × Nat × Nat :=
  match st with
  | (a, b, c, d, e) =>
    let fkv := fk t b c d
    let temp := (rotl 5 a + fkv.1 + e + fkv.2 + w.getD t 0) % 4294967296
    (temp, a, rotl 30 b, c, d)

/-- Process one 16-word block against the running state. -/
def processBlock (h : Nat × Nat × Nat × Nat × Nat) (block : List Nat) :
    Nat × Nat × Nat × Nat × Nat :=
  match h with
  | (h0, h1, h2, h3, h4) =>
    let w := extendSchedule block 64
    match (List.range 80).foldl (sha1Step w) (h0, h1, h2, h3, h4) with
    | (a, b, c, d, e) =>
      ((h0 + a) % 4294967296, (h1 + b) % 4294967296, (h2 + c) % 4294967296,
       (h3 + d) % 4294967296, (h4 + e) % 4294967296)

/-- Lower-case hex digit. -/
def hexDigitChar (n : Nat) : Char :=
  if n < 10 then Char.ofNat (48 + n) else Char.ofNat (87 + n)

/-- Fixed-width lower-case hex rendering. -/
def toHexFixed : Nat → Nat → List Char
  | 0, _ => []
  | d + 1, n => toHexFixed d (n / 16) ++ [hexDigitChar (n % 16)]

/-- SHA-1 digest of a byte list, as the 40-character lower-case hex string. -/
def sha1Hex (msg : List Nat) : List Char :=
  match (chunk16 (toWords (padMessage msg))).foldl processBlock
      (1732584193, 4023233417, 2562383102, 271733878, 3285377520) with
  | (h0, h1, h2, h3, h4) =>
    toHexFixed 8 h0 ++ toHexFixed 8 h1 ++ toHexFixed 8 h2 ++
      toHexFixed 8 h3 ++ toHexFixed 8 h4

/-- UTF-8 encoding of one character. -/
def utf8Char (c : Char) : List Nat :=
  let n := c.toNat
  if n < 128 then [n]
  else if n < 2048 then [192 + n / 64, 128 + n % 64]
  else if n < 65536 then [224 + n / 4096, 128 + n / 64 % 64, 128 + n % 64]
  else [240 + n / 262144, 128 + n / 4096 % 64, 128 + n / 64 % 64, 128 + n % 64]

/-- UTF-8 encoding of a string, as the byte list Go hashes. -/
def utf8Bytes (s : String) : List Nat :=
  s.data.foldr (fun c acc => utf8Char c ++ acc) []

/-- repository.go `CalculateHash`: SHA-1 of the string's bytes, hex-encoded. -/
def CalculateHash (data : String) : String :=
  ⟨sha1Hex (utf8Bytes data)⟩

/-! ## Data model: repository.go structs -/

/-- repository.go `IndexEntry`: `{file_path, hash, modified}`. -/
structure IndexEntry where
  FilePath : String
  Hash : String
  Modified : Bool
deriving DecidableEq, Repr

/-- repository.go `Commit`.  `Date` (Go `time.Time`) is modelled by its
RFC3339 serialization string; its JSON form is that quoted string. -/
structure Commit where
  Hash : String
  Author : String
  Date : String
  Message : String
  Parent : String
  TreeHash : String
deriving DecidableEq, Repr

/-! ## Go `encoding/json` serialization for these structs.

`encoding/json` is Go standard-library code, not part of this repository;
it is modelled here by the exact canonical document `json.Marshal` emits
for `IndexEntry` slices and `Commit` records (struct-tag field order, no
whitespace, Go's string escaping incl. HTML escaping of `<`, `>`, `&`),
together with a parser of that canonical grammar (plus `null`, which
`json.Unmarshal` accepts for a slice). -/

/-- `\u00xx`-style escape. -/
def uescape (n : Nat) : List Char :=
  '\\' :: 'u' :: toHexFixed 4 n

/-- Go JSON escaping of one character. -/
def jsonEscapeChar (c : Char) : List Char :=
  if c = '"' then ['\\', '"']
  else if c = '\\' then ['\\', '\\']
  else if c = '\n' then ['\\', 'n']
  else if c = '\r' then ['\\', 'r']
  else if c = '\t' then ['\\', 't']
  else if c = '<' ∨ c = '>' ∨ c = '&' then uescape c.toNat
  else if c.toNat < 32 then uescape c.toNat
  else if c.toNat = 8232 ∨ c.toNat = 8233 then uescape c.toNat
  else [c]

/-- Escape a character list. -/
def escapeL (s : List Char) : List Char :=
  s.foldr (fun c acc => jsonEscapeChar c ++ acc) []

/-- A JSON string literal. -/
def printStringL (s : List Char) : List Char :=
  '"' :: escapeL s ++ ['"']

/-- Serialized form of one `IndexEntry`. -/
def marshalEntryL (e : IndexEntry) : List Char :=
  "\x7b\"file_path\":".data ++ printStringL e.FilePath.data ++
  ",\"hash\":".data ++ printStringL e.Hash.data ++
  ",\"modified\":".data ++ (if e.Modified then "true".data else "false".data) ++
  "\x7d".data

/-- Comma-separated entry list (without the surrounding brackets). -/
def entriesPayload : List IndexEntry → List Char
  | [] => []
  | [e] => marshalEntryL e
  | e :: rest => marshalEntryL e ++ ',' :: entriesPayload rest

/-- `json.Marshal` of an `IndexEntry` slice. -/
def marshalIndexL (l : List IndexEntry) : List Char :=
  '[' :: entriesPayload l ++ [']']

/-- `json.Marshal` of an `IndexEntry` slice, as a string. -/
def marshalIndexS (l : List IndexEntry) : String :=
  ⟨marshalIndexL l⟩

/-- `json.Marshal` of a `Commit` (struct field order of repository.go). -/
def marshalCommitL (c : Commit) : List Char :=
  "\x7b\"hash\":".data ++ printStringL c.Hash.data ++
  ",\"author\":".data ++ printStringL c.Author.data ++
  ",\"date\":".data ++ printStringL c.Date.data ++
  ",\"message\":".data ++ printStringL c.Message.data ++
  ",\"parent\":".data ++ printStringL c.Parent.data ++
  ",\"tree_hash\":".data ++ printStringL c.TreeHash.data ++
  "\x7d".data

/-- `json.Marshal` of a `Commit`, as a string. -/
def marshalCommitS (c : Commit) : String :=
  ⟨marshalCommitL c⟩

/-- Scanner state inside a JSON string literal. -/
inductive PState where
  | normal : PState
  | esc : PState
  | uni : Nat → Nat → PState
deriving DecidableEq, Repr

/-- Scan a JSON string body up to the closing quote, returning the decoded
content and the rest of the input. -/
def psb : PState → List Char → Option (List Char × List Char)
  | .normal, [] => none
  | .normal, c :: cs =>
      if c = '"' then some ([], cs)
      else if c = '\\' then psb .esc cs
      else (fun r => (c :: r.1, r.2)) <$> psb .normal cs
  | .esc, [] => none
  | .esc, c :: cs =>
      if c = '"' ∨ c = '\\' ∨ c = '/' then
        (fun r => (c :: r.1, r.2)) <$> psb .normal cs
      else if c = 'n' then (fun r => ('\n' :: r.1, r.2)) <$> psb .normal cs
      else if c = 'r' then (fun r => ('\r' :: r.1, r.2)) <$> psb .normal cs
      else if c = 't' then (fun r => ('\t' :: r.1, r.2)) <$> psb .normal cs
      else if c = 'b' then (fun r => ('\x08' :: r.1, r.2)) <$> psb .normal cs
      else if c = 'f' then (fun r => ('\x0c' :: r.1, r.2)) <$> psb .normal cs
      else if c = 'u' then psb (.uni 4 0) cs
      else none
  | .uni _ _, [] => none
  | .uni k acc, c :: cs =>
      match hexVal c with
      | none => none
      | some v =>
        match k with
        | 0 => none
        | 1 => (fun r => (Char.ofNat (acc * 16 + v) :: r.1, r.2)) <$> psb .normal cs
        | k' + 2 => psb (.uni (k' + 1) (acc * 16 + v)) cs
where
  /-- Hex digit value. -/
  hexVal (c : Char) : Option Nat :=
    if 48 ≤ c.toNat ∧ c.toNat ≤ 57 then some (c.toNat - 48)
    else if 97 ≤ c.toNat ∧ c.toNat ≤ 102 then some (c.toNat - 87)
    else if 65 ≤ c.toNat ∧ c.toNat ≤ 70 then some (c.toNat - 55)
    else none

/-- Match a literal prefix. -/
def expectL : List Char → List Char → Option (List Char)
  | [], cs => some cs
  | _ :: _, [] => none
  | l :: ls, c :: cs => if c = l then expectL ls cs else none

/-- Parse a JSON string token. -/
def parseStringTok : List Char → Option (List Char × List Char)
  | '"' :: cs => psb .normal cs
  | _ => none

/-- Parse a JSON boolean token. -/
def parseBoolTok : List Char → Option (Bool × List Char)
  | 't' :: 'r' :: 'u' :: 'e' :: cs => some (true, cs)
  | 'f' :: 'a' :: 'l' :: 's' :: 'e' :: cs => some (false, cs)
  | _ => none

/-- Parse one serialized `IndexEntry`. -/
def parseEntryL (cs : List Char) : Option (IndexEntry × List Char) := do
  let cs ← expectL "\x7b\"file_path\":".data cs
  let (fp, cs) ← parseStringTok cs
  let cs ← expectL ",\"hash\":".data cs
  let (h, cs) ← parseStringTok cs
  let cs ← expectL ",\"modified\":".data cs
  let (m, cs) ← parseBoolTok cs
  let cs ← expectL "\x7d".data cs
  return ({ FilePath := ⟨fp⟩, Hash := ⟨h⟩, Modified := m }, cs)

/-- Parse a non-empty comma-separated entry sequence, consuming the
closing bracket; `fuel` bounds the number of entries. -/
def parseEntriesF : Nat → List Char → Option (List IndexEntry × List Char)
  | 0, _ => none
  | fuel + 1, cs => do
      let (e, rest) ← parseEntryL cs
      match rest with
      | ',' :: r => (fun p => (e :: p.1, p.2)) <$> parseEntriesF fuel r
      | ']' :: r => some ([e], r)
      | _ => none

/-- `json.Unmarshal` into `[]IndexEntry` (canonical grammar; whole input). -/
def parseIndexL (cs : List Char) : Option (List IndexEntry) :=
  match cs with
  | 'n' :: 'u' :: 'l' :: 'l' :: [] => some []
  | '[' :: rest =>
      if rest = [']'] then some []
      else
        match parseEntriesF rest.length rest with
        | some (l, []) => some l
        | _ => none
  | _ => none

/-- `json.Unmarshal` into `[]IndexEntry`, from a string. -/
def parseIndexS (s : String) : Option (List IndexEntry) :=
  parseIndexL s.data

/-- `json.Unmarshal` into a `Commit` (canonical grammar; whole input). -/
def parseCommitL (cs : List Char) : Option Commit := do
  let cs ← expectL "\x7b\"hash\":".data cs
  let (h, cs) ← parseStringTok cs
  let cs ← expectL ",\"author\":".data cs
  let (a, cs) ← parseStringTok cs
  let cs ← expectL ",\"date\":".data cs
  let (d, cs) ← parseStringTok cs
  let cs ← expectL ",\"message\":".data cs
  let (m, cs) ← parseStringTok cs
  let cs ← expectL ",\"parent\":".data cs
  let (p, cs) ← parseStringTok cs
  let cs ← expectL ",\"tree_hash\":".data cs
  let (t, cs) ← parseStringTok cs
  let cs ← expectL "\x7d".data cs
  match cs with
  | [] => some { Hash := ⟨h⟩, Author := ⟨a⟩, Date := ⟨d⟩, Message := ⟨m⟩,
                 Parent := ⟨p⟩, TreeHash := ⟨t⟩ }
  | _ => none

/-- `json.Unmarshal` into a `Commit`, from a string. -/
def parseCommitS (s : String) : Option Commit :=
  parseCommitL s.data

end Gitter

namespace Gitter

/-! ## Filesystem and repository state model

The Go code reads and writes disjoint groups of files; `RepoState` holds
each group explicitly: the working tree's regular files (repo-relative
path ↦ content) and directories, the object store (`.gitter/objects/`,
name ↦ bytes, later writes shadowing earlier ones), the bytes of
`.gitter/index`, the contents of `refs/heads/main` (`none` when the file
does not exist), and `.gitter/log`.  The `.gitter` metadata files live in
these dedicated fields, not in `working`.  `filepath.Walk`'s lexical
traversal order is modelled as the store's list order; no claim below
depends on the traversal order. -/

/-- repository.go `Repository`. -/
structure Repository where
  WorkingDir : String
  GitDir : String
deriving DecidableEq, Repr

/-- The persistent state a Gitter repository's operations touch. -/
structure RepoState where
  working : List (String × String)
  workingDirs : List String
  objects : List (String × String)
  indexData : String
  headRef : Option String
  logData : String
deriving DecidableEq, Repr

/-- repository.go `GITTER_DIR`. -/
def GITTER_DIR : String := ".gitter"

/-- `filepath.Join` of two path components (model: plain separator). -/
def joinPath (a b : String) : String := a ++ "/" ++ b

/-- `strings.Contains`. -/
def containsSubL (n : List Char) : List Char → Bool
  | [] => n.isEmpty
  | c :: t => n.isPrefixOf (c :: t) || containsSubL n t

/-- `strings.Contains hay needle`. -/
def strContains (hay needle : String) : Bool :=
  containsSubL needle.data hay.data

/-- `ioutil.ReadFile` on an object-store name. -/
def readObject (st : RepoState) (name : String) : Option String :=
  st.objects.lookup name

/-- `ioutil.WriteFile` on an object-store name (overwrite). -/
def writeObject (st : RepoState) (name bytes : String) : RepoState :=
  { st with objects := (name, bytes) :: st.objects }

/-- repository.go `hashFile`, applied to the file's content. -/
def hashFile (content : String) : String :=
  CalculateHash content

/-- ASCII whitespace (the cases of `unicode.IsSpace` our data can meet). -/
def isSpaceGo (c : Char) : Bool :=
  c = ' ' ∨ c = '\t' ∨ c = '\n' ∨ c = '\r' ∨ c = '\x0b' ∨ c = '\x0c'

/-- `strings.TrimSpace`. -/
def trimSpace (s : String) : String :=
  ⟨(((s.data.dropWhile isSpaceGo).reverse).dropWhile isSpaceGo).reverse⟩

/-- repository.go `GetCurrentHead`: dereference `HEAD` (`ref: refs/heads/main`,
as `InitRepository` writes it) to the branch file; a missing branch file
means no commits yet, reported as the empty hash. -/
def GetCurrentHead (st : RepoState) : String :=
  match st.headRef with
  | none => ""
  | some s => trimSpace s

/-- repository.go `UpdateHead`. -/
def UpdateHead (st : RepoState) (commitHash : String) : RepoState :=
  { st with headRef := some (commitHash ++ "\n") }

/-- repository.go `UpdateLog`. -/
def UpdateLog (st : RepoState) (c : Commit) : RepoState :=
  { st with logData := st.logData ++ c.Hash ++ "\n" }

/-- repository.go `LoadIndex`: read and unmarshal `.gitter/index`. -/
def LoadIndex (st : RepoState) : Except String (List IndexEntry) :=
  match parseIndexS st.indexData with
  | some l => .ok l
  | none => .error "invalid character in index"

/-- repository.go `SaveIndex`: marshal and overwrite `.gitter/index`. -/
def SaveIndex (st : RepoState) (index : List IndexEntry) : RepoState :=
  { st with indexData := marshalIndexS index }

/-- The state `InitRepository` creates: empty index document, no branch
file, empty log, empty object store. -/
def initState (working : List (String × String)) (workingDirs : List String) :
    RepoState :=
  { working := working, workingDirs := workingDirs, objects := [],
    indexData := "[]", headRef := none, logData := "" }

/-! ## add (repository.go `AddFile`) -/

/-- `filepath.Match`-style pattern match (`*`, `?`, literals; `*` does not
cross a path separator).  `filepath.Glob` is Go standard-library code;
this models the spec's "shell-style glob" for the patterns the claims
need (none of them contains character classes). -/
def matchGlob : List Char → List Char → Bool
  | [], [] => true
  | '*' :: p, [] => matchGlob p []
  | '*' :: p, c :: n => matchGlob p (c :: n) || (c ≠ '/' && matchGlob ('*' :: p) n)
  | '?' :: p, c :: n => c ≠ '/' && matchGlob p n
  | c :: p, d :: n => c = d && matchGlob p n
  | _, _ => false

/-- `filepath.Glob` over the modelled filesystem (files and directories). -/
def globMatches (st : RepoState) (pattern : String) : List String :=
  ((st.working.map (·.1)) ++ st.workingDirs).filter
    (fun p => matchGlob pattern.data p.data)

/-- The in-place update-or-append loop of `AddFile` over the index. -/
def upsertEntry : List IndexEntry → String → String → List IndexEntry
  | [], file, hash => [{ FilePath := file, Hash := hash, Modified := true }]
  | e :: rest, file, hash =>
      if e.FilePath = file then { e with Hash := hash, Modified := true } :: rest
      else e :: upsertEntry rest file hash

/-- The per-file loop of `AddFile`: a missing file is skipped silently; a
directory passes the `os.Stat` existence check but `hashFile` fails reading
it (EISDIR), aborting before the index is saved; otherwise the blob is
written and the entry upserted with `Modified = true`. -/
def addLoop (st : RepoState) : List String → List IndexEntry →
    RepoState × List IndexEntry × Option String
  | [], index => (st, index, none)
  | file :: rest, index =>
    match st.working.lookup file with
    | some content =>
        let hash := hashFile content
        addLoop (writeObject st hash content) rest (upsertEntry index file hash)
    | none =>
        if st.workingDirs.contains file then
          (st, index, some ("read " ++ file ++ ": is a directory"))
        else addLoop st rest index

/-- repository.go `AddFile`. -/
def AddFile (st : RepoState) (filePath : String) : RepoState × Option String :=
  let files := if strContains filePath "*" then globMatches st filePath
               else [filePath]
  match LoadIndex st with
  | .error e => (st, some e)
  | .ok index =>
    match addLoop st files index with
    | (st', index', none) => (SaveIndex st' index', none)
    | (st', _, some e) => (st', some e)

/-! ## status (operations.go `ShowStatus`) -/

/-- The `filepath.Walk` over the working tree shared by status, diff with
an empty argument, and commit `-a`: skips every path that contains the
`.gitter` substring (the check is on the joined absolute path) and all
directories. -/
def walkFiles (repo : Repository) (st : RepoState) : List (String × String) :=
  st.working.filter
    (fun pr => !strContains (joinPath repo.WorkingDir pr.1) GITTER_DIR)

/-- The `indexedFiles` map of `ShowStatus` (later duplicate paths win). -/
def lookupEntry (index : List IndexEntry) (p : String) : Option IndexEntry :=
  (index.filter (fun e => e.FilePath = p)).getLast?

/-- The classification loops of `ShowStatus`, over the index and the
walked working files (path ↦ current digest). -/
def statusBuckets (index : List IndexEntry)
    (workingFiles : List (String × String)) :
    List String × List String × List String :=
  let staged := (index.filter (·.Modified)).map (·.FilePath)
  let notStaged := (workingFiles.filter (fun pr =>
    match lookupEntry index pr.1 with
    | some e => !e.Modified && e.Hash != pr.2
    | none => false)).map (·.1)
  let untracked := (workingFiles.filter (fun pr =>
    (lookupEntry index pr.1).isNone)).map (·.1)
  (staged, notStaged, untracked)

/-- The printing tail of `ShowStatus`. -/
def renderStatus (staged notStaged untracked : List String) : String :=
  (if staged.isEmpty then "" else
    "Changes to be committed:\n" ++
      String.join (staged.map (fun f => "  modified: " ++ f ++ "\n")) ++ "\n") ++
  (if notStaged.isEmpty then "" else
    "Changes not staged for commit:\n" ++
      String.join (notStaged.map (fun f => "  modified: " ++ f ++ "\n")) ++ "\n") ++
  (if untracked.isEmpty then "" else
    "Untracked files:\n" ++
      String.join (untracked.map (fun f => "  " ++ f ++ "\n"))) ++
  (if staged.isEmpty ∧ notStaged.isEmpty ∧ untracked.isEmpty then
    "nothing to commit, working tree clean\n" else "")

/-- operations.go `ShowStatus` (output, error). -/
def ShowStatus (repo : Repository) (st : RepoState) : String × Option String :=
  match LoadIndex st with
  | .error e => ("", some e)
  | .ok index =>
    let workingFiles := (walkFiles repo st).map (fun pr => (pr.1, hashFile pr.2))
    match statusBuckets index workingFiles with
    | (staged, notStaged, untracked) =>
      (renderStatus staged notStaged untracked, none)

/-! ## commit (operations.go `CommitChanges`) -/

/-- The walk of the `-a` branch: every walked working file whose path is
already present in the (pre-walk) index. -/
def commitAllCandidates (repo : Repository) (st : RepoState)
    (index : List IndexEntry) : List String :=
  ((walkFiles repo st).map (·.1)).filter
    (fun p => index.any (fun e => e.FilePath = p))

/-- `AddFile` applied to each candidate in walk order, stopping at the
first error. -/
def stageLoop : RepoState → List String → RepoState × Option String
  | st, [] => (st, none)
  | st, p :: rest =>
    match AddFile st p with
    | (st', none) => stageLoop st' rest
    | (st', some e) => (st', some e)

/-- The `if all { … }` staging walk at the start of `CommitChanges`. -/
def commitStagePhase (repo : Repository) (st : RepoState) (all : Bool)
    (index0 : List IndexEntry) : RepoState × Option String :=
  if all then stageLoop st (commitAllCandidates repo st index0)
  else (st, none)

/-- The index `CommitChanges` goes on with: reloaded after the `-a` walk,
otherwise the one already loaded. -/
def commitReload (st1 : RepoState) (all : Bool) (index0 : List IndexEntry) :
    Except String (List IndexEntry) :=
  if all then LoadIndex st1 else .ok index0

/-- The writing tail of `CommitChanges` (operations.go; repository.go
lines 1088–1150): store the tree blob, build the commit record with an
empty `Hash`, marshal it, digest those bytes, store those same bytes
under the digest, update HEAD and the log, reset the index.  The `Hash`
field is populated only on the in-memory record. -/
def commitFinish (st1 : RepoState) (message now : String)
    (index stagedFiles : List IndexEntry) : RepoState × String × Option String :=
  let treeData := marshalIndexS stagedFiles
  let treeHash := CalculateHash treeData
  let st2 := writeObject st1 treeHash treeData
  let commit : Commit :=
    { Hash := "", Author := "user", Date := now, Message := message,
      Parent := GetCurrentHead st2, TreeHash := treeHash }
  let commitData := marshalCommitS commit
  let commitHash := CalculateHash commitData
  let st3 := writeObject st2 commitHash commitData
  let st4 := UpdateHead st3 commitHash
  let st5 := UpdateLog st4 { commit with Hash := commitHash }
  let index2 := index.map (fun e => { e with Modified := false })
  let st6 := SaveIndex st5 index2
  (st6, "[main " ++ commitHash.take 7 ++ "] " ++ message ++ "\n", none)

/-- The in-memory commit record `CommitChanges` marshals (its `Hash`
still empty; `Parent` is the HEAD resolved before the commit). -/
def commitRecordOf (st1 : RepoState) (message now : String)
    (stagedFiles : List IndexEntry) : Commit :=
  { Hash := "", Author := "user", Date := now, Message := message,
    Parent := GetCurrentHead st1,
    TreeHash := CalculateHash (marshalIndexS stagedFiles) }

/-- operations.go `CommitChanges` (tree-storing variant;
repository.go lines 1021–1151).  `now` models `time.Now()` already in its
serialized form.  Returns (new state, stdout, error). -/
def CommitChanges (repo : Repository) (st : RepoState) (message : String)
    (all : Bool) (now : String) : RepoState × String × Option String :=
  match LoadIndex st with
  | .error e => (st, "", some e)
  | .ok index0 =>
    match commitStagePhase repo st all index0 with
    | (st1, some e) => (st1, "", some e)
    | (st1, none) =>
      match commitReload st1 all index0 with
      | .error e => (st1, "", some e)
      | .ok index =>
        if (index.filter (·.Modified)).isEmpty then
          (st1, "", some "nothing to commit")
        else commitFinish st1 message now index (index.filter (·.Modified))


/-! ## diff (operations.go `ShowDiff` / `showFileDiff`)

`github.com/pmezard/go-difflib` is an external library.  Modelled from
the spec (§4.6): a line diff grouped into hunks with two context lines,
`a/<path>` / `b/<path>` headers, `@@ -start,len +start,len @@` hunk
headers, and `+`/`-`/` ` prefixed lines; nothing is emitted for
byte-identical contents.  The line diff is a minimal edit script chosen
with longest-common-subsequence lookahead. -/

/-- difflib `SplitLines`: split after each newline and give the last
piece a trailing newline (so `""` becomes `["\n"]`). -/
def splitAfterNL : List Char → List (List Char)
  | [] => [[]]
  | c :: t =>
      if c = '\n' then ['\n'] :: splitAfterNL t
      else
        match splitAfterNL t with
        | [] => [[c]]
        | h :: hs => (c :: h) :: hs

/-- difflib `SplitLines` on a string. -/
def SplitLines (s : String) : List String :=
  let parts := (splitAfterNL s.data).map (fun l => (⟨l⟩ : String))
  parts.dropLast ++ [parts.getLastD "" ++ "\n"]

/-- Length of a longest common subsequence (fuelled). -/
def lcsLen : Nat → List String → List String → Nat
  | 0, _, _ => 0
  | f + 1, a :: as, b :: bs =>
      if a = b then 1 + lcsLen f as bs
      else max (lcsLen f as (b :: bs)) (lcsLen f (a :: as) bs)
  | _, _, _ => 0

/-- Tagged diff lines (`'-'` removal, `'+'` addition, `' '` context),
a minimal edit script (fuelled; fuel `≥` combined length suffices). -/
def diffOps : Nat → List String → List String → List (Char × String)
  | 0, as, bs => as.map (fun a => ('-', a)) ++ bs.map (fun b => ('+', b))
  | f + 1, a :: as, b :: bs =>
      if a = b then (' ', a) :: diffOps f as bs
      else if lcsLen (f + 1) (a :: as) bs ≤ lcsLen (f + 1) as (b :: bs) then
        ('-', a) :: diffOps f as (b :: bs)
      else ('+', b) :: diffOps f (a :: as) bs
  | _, as, bs => as.map (fun a => ('-', a)) ++ bs.map (fun b => ('+', b))

/-- Annotate each op with the 0-based a- and b-positions it starts at. -/
def annotateOps : Nat → Nat → List (Char × String) →
    List ((Char × String) × Nat × Nat)
  | _, _, [] => []
  | i, j, (t, l) :: rest =>
      if t = ' ' then ((t, l), i, j) :: annotateOps (i + 1) (j + 1) rest
      else if t = '-' then ((t, l), i, j) :: annotateOps (i + 1) j rest
      else ((t, l), i, j) :: annotateOps i (j + 1) rest

/-- An op index is kept when it is within `n` positions of a change. -/
def keepSet (n : Nat) (ops : List (Char × String)) : List Nat :=
  (ops.enum.filter (fun p => p.2.1 ≠ ' ')).map (·.1) |>.foldr
    (fun j acc => ((List.range (2 * n + 1)).map (fun d => j + d - n)) ++ acc) []

/-- Maximal runs of kept elements (hunks). -/
def keptRuns (mark : List (Bool × α)) (acc : List α) : List (List α) :=
  match mark with
  | [] => if acc.isEmpty then [] else [acc.reverse]
  | (true, x) :: t => keptRuns t (x :: acc)
  | (false, _) :: t =>
      if acc.isEmpty then keptRuns t [] else acc.reverse :: keptRuns t []

/-- difflib `formatRangeUnified`. -/
def formatRange (start len : Nat) : String :=
  if len = 1 then toString (start + 1)
  else toString (if len = 0 then start else start + 1) ++ "," ++ toString len

/-- Render one hunk: `@@`-header plus tagged lines (lines keep the
trailing newline `SplitLines` gave them). -/
def renderHunk (h : List ((Char × String) × Nat × Nat)) : String :=
  let aStart := (h.head?.map (fun x => x.2.1)).getD 0
  let bStart := (h.head?.map (fun x => x.2.2)).getD 0
  let aLen := (h.filter (fun x => x.1.1 = ' ' ∨ x.1.1 = '-')).length
  let bLen := (h.filter (fun x => x.1.1 = ' ' ∨ x.1.1 = '+')).length
  "@@ -" ++ formatRange aStart aLen ++ " +" ++ formatRange bStart bLen ++
    " @@\n" ++ String.join (h.map (fun x => (⟨[x.1.1]⟩ : String) ++ x.1.2))

/-- difflib `GetUnifiedDiffString` with `Context: 2`: empty when the
sequences are equal, otherwise file headers plus the rendered hunks. -/
def GetUnifiedDiffString (a b : List String) (fromFile toFile : String) :
    String :=
  let ops := diffOps (a.length + b.length) a b
  if ops.all (fun op => op.1 = ' ') then ""
  else
    let keep := keepSet 2 ops
    let annotated := annotateOps 0 0 ops
    let marked := annotated.enum.map (fun p => (keep.contains p.1, p.2))
    let hs := keptRuns marked []
    "--- " ++ fromFile ++ "\n" ++ "+++ " ++ toFile ++ "\n" ++
      String.join (hs.map renderHunk)

/-- The "before" content `showFileDiff` uses for a path: the blob named
by the path's entry inside the HEAD commit's tree object; empty when the
tree object is missing, does not parse, has no entry for the path, or
names a missing blob. -/
def headContentFor (st : RepoState) (commit : Commit) (filePath : String) :
    String :=
  match readObject st commit.TreeHash with
  | none => ""
  | some treeData =>
    match parseIndexS treeData with
    | none => ""
    | some files =>
      match files.find? (fun f => f.FilePath = filePath) with
      | none => ""
      | some f =>
        match readObject st f.Hash with
        | none => ""
        | some content => content

/-- operations.go `showFileDiff` (tree-based variant; repository.go lines
1247–1308): the diff text it prints (empty for a deleted path or
byte-identical contents). -/
def showFileDiff (st : RepoState) (commit : Commit) (filePath : String) :
    String :=
  match st.working.lookup filePath with
  | none => ""
  | some currentContent =>
    let headContent := headContentFor st commit filePath
    GetUnifiedDiffString (SplitLines headContent) (SplitLines currentContent)
      ("a/" ++ filePath) ("b/" ++ filePath)

/-- The candidate set of `ShowDiff` for an empty argument: the same
`.gitter`-skipping walk as status. -/
def diffCandidates (repo : Repository) (st : RepoState) : List String :=
  (walkFiles repo st).map (·.1)

/-- The candidate-path resolution of `ShowDiff`: empty argument ⇒ the
walked working tree; an existing directory ⇒ the files under it (the
directory branch has no `.gitter` filter); an existing file ⇒ itself;
otherwise the `os.Stat` error aborts. -/
def filesToCheckFor (repo : Repository) (st : RepoState) (path : String) :
    Except String (List String) :=
  if path = "" then .ok (diffCandidates repo st)
  else if st.workingDirs.contains path then
    .ok ((st.working.map (·.1)).filter
      (fun p => (path ++ "/").data.isPrefixOf p.data))
  else if (st.working.lookup path).isSome then .ok [path]
  else .error ("stat " ++ path ++ ": no such file or directory")

/-- operations.go `ShowDiff` (output, error).  Per-file results are
concatenated; a failed path is skipped without aborting the rest. -/
def ShowDiff (repo : Repository) (st : RepoState) (path : String) :
    String × Option String :=
  let head := GetCurrentHead st
  if head = "" then ("", some "no commits yet")
  else
    match readObject st head with
    | none => ("", some ("open " ++ head ++ ": no such file or directory"))
    | some commitData =>
      match parseCommitS commitData with
      | none => ("", some "invalid character in commit")
      | some commit =>
        match filesToCheckFor repo st path with
        | .error e => ("", some e)
        | .ok files =>
          (String.join (files.map (fun f => showFileDiff st commit f)), none)

/-! ## log (operations.go `ShowLog`) -/

/-- Unmarshalled `time.Time` rendered with the Go layout string of
`ShowLog`.  Modelled from the spec ("formatted timestamp", §4.7): an
opaque formatter; the model carries the timestamp already formatted. -/
def formatLogDate (d : String) : String := d

/-- The block `ShowLog` prints for one commit record. -/
def commitBlock (c : Commit) : String :=
  "commit " ++ c.Hash ++ "\n" ++ "Author: " ++ c.Author ++ "\n" ++
  "Date: " ++ formatLogDate c.Date ++ "\n" ++ "\n    " ++ c.Message ++ "\n\n"

/-- The backward traversal loop of `ShowLog`.  The Go loop runs until the
parent hash is empty; `fuel` bounds the modelled number of iterations (a
cyclic chain would make the Go loop run forever). -/
def showLogLoop (st : RepoState) : Nat → String → String × Option String
  | 0, current => if current = "" then ("", none) else ("", some "out of fuel")
  | fuel + 1, current =>
    if current = "" then ("", none)
    else
      match readObject st current with
      | none => ("", some ("open " ++ current ++ ": no such file or directory"))
      | some data =>
        match parseCommitS data with
        | none => ("", some "invalid character in commit")
        | some c =>
          match showLogLoop st fuel c.Parent with
          | (out, err) => (commitBlock c ++ out, err)

/-- operations.go `ShowLog` (output, error). -/
def ShowLog (st : RepoState) (fuel : Nat) : String × Option String :=
  let head := GetCurrentHead st
  if head = "" then ("No commits yet\n", none)
  else showLogLoop st fuel head


/-- A non-empty parent-linked chain of commit records stored in the
object store, starting at hash `h` and ending at the first commit
(empty `Parent`). -/
def linkedChain (st : RepoState) : String → List Commit → Bool
  | _, [] => false
  | h, c :: rest =>
    (readObject st h = some (marshalCommitS c) : Bool) &&
    match rest with
    | [] => c.Parent = ""
    | _ :: _ => (c.Parent ≠ "" : Bool) && linkedChain st c.Parent rest

/-! ## Concrete fixture: the repository test scenario

`test.txt` containing "original content" is added and committed, then
edited to "modified content" (the `TestShowDiff` "Modified file"
scenario of operations_test.go). -/

/-- Fixture repository value. -/
def exRepo : Repository := ⟨"/w", "/w/.gitter"⟩

/-- Fixture clock value. -/
def exNow : String := "2025-01-25T00:27:00+05:30"

/-- Freshly initialized state with one working file. -/
def exSt0 : RepoState := initState [("test.txt", "original content")] []

/-- After `add test.txt`. -/
def exStAdded : RepoState := (AddFile exSt0 "test.txt").1

/-- The commit call on the staged state. -/
def exCommitRes : RepoState × String × Option String :=
  CommitChanges exRepo exStAdded "Initial commit" false exNow

/-- After the commit. -/
def exSt1 : RepoState := exCommitRes.1

/-- After editing the committed file without restaging. -/
def exStModified : RepoState :=
  { exSt1 with working := [("test.txt", "modified content")] }

/-- The digest of the committed blob. -/
def exBlobHash : String := CalculateHash "original content"

/-- The tree snapshot the commit stored. -/
def exTreeFiles : List IndexEntry := [⟨"test.txt", exBlobHash, true⟩]

/-- The tree object's bytes. -/
def exTreeData : String := marshalIndexS exTreeFiles

/-- The commit record as it was marshalled (hash field still empty). -/
def exCommitRecord : Commit :=
  ⟨"", "user", exNow, "Initial commit", "", CalculateHash exTreeData⟩

/-- First record of a hand-built two-commit chain. -/
def exLogCommit1 : Commit := ⟨"h1", "user", "d1", "First commit", "", "t1"⟩

/-- Second record of the chain; its parent is the object name `"aaa"`. -/
def exLogCommit2 : Commit := ⟨"h2", "user", "d2", "Second commit", "aaa", "t2"⟩

/-- A state whose object store holds the two-record chain with HEAD at
`"bbb"`. -/
def exLogSt : RepoState :=
  { initState [] [] with
    objects := [("bbb", marshalCommitS exLogCommit2),
                ("aaa", marshalCommitS exLogCommit1)],
    headRef := some "bbb\n" }

/-- The index sequence of `TestLoadAndSaveIndex` (repository_test.go). -/
def exIdxList : List IndexEntry :=
  [⟨"test.txt", "abc123", true⟩, ⟨"src/main.go", "def456", false⟩]

/-- A state whose persisted index is that sequence. -/
def exIdxSt : RepoState :=
  { initState [] [] with indexData := marshalIndexS exIdxList }

end Gitter
namespace Gitter

theorem expectL_append (l r : List Char) : expectL l (l ++ r) = some r := by
  induction l with
  | nil => rfl
  | cons c cs ih => simp [expectL, ih]

theorem hexVal_hexDigitChar (v : Nat) (h : v < 16) :
    psb.hexVal (hexDigitChar v) = some v := by
  have H : ∀ v' < 16, psb.hexVal (hexDigitChar v') = some v' := by decide
  exact H v h

theorem toHexFixed_four (n : Nat) (h : n < 65536) :
    toHexFixed 4 n = [hexDigitChar (n / 4096), hexDigitChar (n / 256 % 16),
      hexDigitChar (n / 16 % 16), hexDigitChar (n % 16)] := by
  have h1 : n / 16 / 16 = n / 256 := by omega
  have h2 : n / 256 / 16 = n / 4096 := by omega
  have h3 : n / 4096 / 16 = 0 := by omega
  have h4 : n / 4096 % 16 = n / 4096 := by omega
  simp [toHexFixed, h1, h2, h3, h4]

theorem psb_uescape (c : Char) (h : c.toNat < 65536) (t : List Char) :
    psb .normal (uescape c.toNat ++ t) =
      (fun r => (c :: r.1, r.2)) <$> psb .normal t := by
  have e1 := hexVal_hexDigitChar (c.toNat / 4096) (by omega)
  have e2 := hexVal_hexDigitChar (c.toNat / 256 % 16) (by omega)
  have e3 := hexVal_hexDigitChar (c.toNat / 16 % 16) (by omega)
  have e4 := hexVal_hexDigitChar (c.toNat % 16) (by omega)
  rw [uescape, toHexFixed_four _ h]
  simp [psb, e1, e2, e3, e4]
  have hval : ((c.toNat / 4096 * 16 + c.toNat / 256 % 16) * 16 + c.toNat / 16 % 16)
      * 16 + c.toNat % 16 = c.toNat := by omega
  rw [hval, Char.ofNat_toNat]

theorem psb_normal_cons (c : Char) (t : List Char) :
    psb .normal (jsonEscapeChar c ++ t) =
      (fun r => (c :: r.1, r.2)) <$> psb .normal t := by
  rw [jsonEscapeChar]
  split_ifs with h1 h2 h3 h4 h5 h6 h7 h8
  · subst h1; simp [psb]
  · subst h2; simp [psb]
  · subst h3; simp [psb]
  · subst h4; simp [psb]
  · subst h5; simp [psb]
  · rcases h6 with h | h | h <;> subst h <;>
      exact psb_uescape _ (by decide) t
  · exact psb_uescape c (by omega) t
  · rcases h8 with h | h <;> exact psb_uescape c (by omega) t
  · simp [psb, h1, h2]

theorem psb_escape (s t : List Char) :
    psb .normal (escapeL s ++ '"' :: t) = some (s, t) := by
  induction s with
  | nil => simp [escapeL, psb]
  | cons c cs ih =>
    have hc : escapeL (c :: cs) = jsonEscapeChar c ++ escapeL cs := by
      simp [escapeL]
    rw [hc, List.append_assoc, psb_normal_cons, ih]
    rfl

theorem parseStringTok_print (s t : List Char) :
    parseStringTok (printStringL s ++ t) = some (s, t) := by
  have : printStringL s ++ t = '"' :: (escapeL s ++ '"' :: t) := by
    simp [printStringL]
  rw [this, parseStringTok, psb_escape]

theorem parseBoolTok_print (b : Bool) (t : List Char) :
    parseBoolTok ((if b then ['t', 'r', 'u', 'e'] else ['f', 'a', 'l', 's', 'e']) ++ t)
      = some (b, t) := by
  cases b <;> simp [parseBoolTok]

set_option maxHeartbeats 1000000 in
theorem parseEntryL_marshal (e : IndexEntry) (t : List Char) :
    parseEntryL (marshalEntryL e ++ t) = some (e, t) := by
  obtain ⟨⟨fp⟩, ⟨hs⟩, m⟩ := e
  simp [parseEntryL, marshalEntryL, List.append_assoc, expectL,
    parseStringTok_print, parseBoolTok_print]

theorem parseEntriesF_payload (l : List IndexEntry) :
    ∀ (e : IndexEntry) (t : List Char) (f : Nat), l.length < f →
      parseEntriesF f (entriesPayload (e :: l) ++ ']' :: t) = some (e :: l, t) := by
  induction l with
  | nil =>
    intro e t f hf
    obtain ⟨f', rfl⟩ : ∃ f', f = f' + 1 := ⟨f - 1, by omega⟩
    simp [entriesPayload, parseEntriesF, parseEntryL_marshal]
  | cons e' l' ih =>
    intro e t f hf
    obtain ⟨f', rfl⟩ : ∃ f', f = f' + 1 := ⟨f - 1, by omega⟩
    have hp : entriesPayload (e :: e' :: l') =
        marshalEntryL e ++ ',' :: entriesPayload (e' :: l') := by
      simp [entriesPayload]
    rw [hp, List.append_assoc]
    have hih := ih e' t f' (by simp at hf; omega)
    simp [parseEntriesF, parseEntryL_marshal, hih]

theorem marshalEntryL_head (e : IndexEntry) :
    ∃ r, marshalEntryL e = '\x7b' :: r :=
  ⟨_, rfl⟩

theorem length_le_entriesPayload (l : List IndexEntry) :
    l.length ≤ (entriesPayload l).length := by
  induction l with
  | nil => simp [entriesPayload]
  | cons e l' ih =>
    obtain ⟨r, hr⟩ := marshalEntryL_head e
    cases l' with
    | nil => simp [entriesPayload, hr]
    | cons e' l'' =>
      have hp : entriesPayload (e :: e' :: l'') =
          marshalEntryL e ++ ',' :: entriesPayload (e' :: l'') := by
        simp [entriesPayload]
      have hih := ih
      simp only [hp, List.length_append, List.length_cons, hr] at hih ⊢
      omega

theorem parseIndexL_marshal (l : List IndexEntry) :
    parseIndexL (marshalIndexL l) = some l := by
  cases l with
  | nil => rfl
  | cons e l' =>
    obtain ⟨r, hr⟩ := marshalEntryL_head e
    have hhead : ∃ r', entriesPayload (e :: l') = '\x7b' :: r' := by
      cases l' with
      | nil => exact ⟨r, by simp [entriesPayload, hr]⟩
      | cons e' l'' =>
        exact ⟨r ++ ',' :: entriesPayload (e' :: l''), by simp [entriesPayload, hr]⟩
    obtain ⟨r', hr'⟩ := hhead
    have hne : entriesPayload (e :: l') ++ [']'] ≠ [']'] := by simp [hr']
    have hlen : l'.length < (entriesPayload (e :: l') ++ [']']).length := by
      have := length_le_entriesPayload (e :: l')
      simp only [List.length_append, List.length_cons] at this ⊢
      omega
    have hm : marshalIndexL (e :: l') =
        '[' :: (entriesPayload (e :: l') ++ [']']) := by
      simp [marshalIndexL]
    rw [hm, parseIndexL]
    simp only [if_neg hne]
    have hp := parseEntriesF_payload l' e []
        ((entriesPayload (e :: l') ++ [']']).length) hlen
    simp only [List.append_nil] at hp
    rw [hp]

theorem parseIndexS_marshal (l : List IndexEntry) :
    parseIndexS (marshalIndexS l) = some l := by
  have : (marshalIndexS l).data = marshalIndexL l := rfl
  rw [parseIndexS, this, parseIndexL_marshal]

set_option maxHeartbeats 2000000 in
theorem parseCommitL_marshal (c : Commit) :
    parseCommitL (marshalCommitL c) = some c := by
  obtain ⟨⟨h⟩, ⟨a⟩, ⟨d⟩, ⟨m⟩, ⟨p⟩, ⟨tr⟩⟩ := c
  have happ : marshalCommitL ⟨⟨h⟩, ⟨a⟩, ⟨d⟩, ⟨m⟩, ⟨p⟩, ⟨tr⟩⟩ =
      marshalCommitL ⟨⟨h⟩, ⟨a⟩, ⟨d⟩, ⟨m⟩, ⟨p⟩, ⟨tr⟩⟩ ++ [] := by simp
  rw [happ]
  simp [parseCommitL, marshalCommitL, List.append_assoc, expectL,
    parseStringTok_print]

theorem parseCommitS_marshal (c : Commit) :
    parseCommitS (marshalCommitS c) = some c := by
  have : (marshalCommitS c).data = marshalCommitL c := rfl
  rw [parseCommitS, this, parseCommitL_marshal]

end Gitter

namespace Gitter

/-! ## Helper lemmas about digests, trimming and state components -/

theorem dropWhile_all_false {p : Char → Bool} {l : List Char}
    (h : ∀ c ∈ l, p c = false) : l.dropWhile p = l := by
  induction l with
  | nil => rfl
  | cons c t ih =>
    rw [List.dropWhile_cons, h c (by simp)]
    simp [ih (fun d hd => h d (by simp [hd]))]

theorem toHexFixed_chars (d : Nat) :
    ∀ (n : Nat), ∀ c ∈ toHexFixed d n, ∃ v, v < 16 ∧ c = hexDigitChar v := by
  induction d with
  | zero => intro n c hc; simp [toHexFixed] at hc
  | succ d ih =>
    intro n c hc
    rw [toHexFixed] at hc
    rcases List.mem_append.1 hc with h | h
    · exact ih _ c h
    · simp at h
      exact ⟨n % 16, by omega, h⟩

theorem sha1Hex_shape (msg : List Nat) :
    ∃ a b c d e, sha1Hex msg = toHexFixed 8 a ++ toHexFixed 8 b ++
      toHexFixed 8 c ++ toHexFixed 8 d ++ toHexFixed 8 e := by
  rcases hm : (chunk16 (toWords (padMessage msg))).foldl processBlock
      (1732584193, 4023233417, 2562383102, 271733878, 3285377520) with ⟨a, b, c, d, e⟩
  exact ⟨a, b, c, d, e, by rw [sha1Hex, hm]⟩

theorem isSpaceGo_hexDigitChar (v : Nat) (h : v < 16) :
    isSpaceGo (hexDigitChar v) = false := by
  have H : ∀ v' < 16, isSpaceGo (hexDigitChar v') = false := by decide
  exact H v h

theorem CalculateHash_no_space (s : String) :
    ∀ c ∈ (CalculateHash s).data, isSpaceGo c = false := by
  intro c hc
  have hdat : (CalculateHash s).data = sha1Hex (utf8Bytes s) := rfl
  obtain ⟨a, b, c', d, e, hsh⟩ := sha1Hex_shape (utf8Bytes s)
  rw [hdat, hsh] at hc
  simp only [List.mem_append] at hc
  rcases hc with ((((h | h) | h) | h) | h) <;>
    · obtain ⟨v, hv, rfl⟩ := toHexFixed_chars 8 _ c h
      exact isSpaceGo_hexDigitChar v hv

theorem toHexFixed_length (d n : Nat) : (toHexFixed d n).length = d := by
  induction d generalizing n with
  | zero => rfl
  | succ d ih => simp [toHexFixed, ih]

theorem CalculateHash_length (s : String) : (CalculateHash s).data.length = 40 := by
  have hdat : (CalculateHash s).data = sha1Hex (utf8Bytes s) := rfl
  obtain ⟨a, b, c, d, e, hsh⟩ := sha1Hex_shape (utf8Bytes s)
  rw [hdat, hsh]
  simp [toHexFixed_length]

theorem CalculateHash_ne_empty (s : String) : CalculateHash s ≠ "" := by
  intro h
  have := CalculateHash_length s
  rw [h] at this
  simp at this

theorem trimSpace_append_nl (s : String)
    (h : ∀ c ∈ s.data, isSpaceGo c = false) : trimSpace (s ++ "\n") = s := by
  have hd : (s ++ "\n").data = s.data ++ ['\n'] := by
    simp [String.data_append]
  rw [trimSpace]
  cases hs : s.data with
  | nil =>
    have hss : s = ⟨[]⟩ := by cases s; simp_all
    subst hss
    rfl
  | cons c t =>
    have hc : isSpaceGo c = false := h c (by simp [hs])
    have hdw : List.dropWhile isSpaceGo (c :: (t ++ ['\n'])) = c :: (t ++ ['\n']) := by
      rw [List.dropWhile_cons, hc]
      simp
    have hrev : (c :: (t ++ ['\n'])).reverse = '\n' :: (c :: t).reverse := by
      simp
    have hall : ∀ d ∈ (c :: t).reverse, isSpaceGo d = false := by
      intro d hdm
      exact h d (by rw [hs]; exact List.mem_reverse.1 hdm)
    have hdw2 : List.dropWhile isSpaceGo ('\n' :: (c :: t).reverse) = (c :: t).reverse := by
      rw [List.dropWhile_cons]
      simp only [show isSpaceGo '\n' = true from by decide, if_true]
      exact dropWhile_all_false hall
    rw [hd, hs]
    simp only [List.cons_append] at *
    rw [hdw, hrev, hdw2, List.reverse_reverse]
    cases s
    simp_all

theorem LoadIndex_SaveIndex (st : RepoState) (l : List IndexEntry) :
    LoadIndex (SaveIndex st l) = .ok l := by
  simp [LoadIndex, SaveIndex, parseIndexS_marshal]

theorem GetCurrentHead_set (st : RepoState) (h : String)
    (hs : ∀ c ∈ h.data, isSpaceGo c = false) :
    GetCurrentHead { st with headRef := some (h ++ "\n") } = h := by
  simp [GetCurrentHead, trimSpace_append_nl h hs]

theorem containsSubL_append_right (n g h : List Char)
    (hc : containsSubL n h = true) : containsSubL n (g ++ h) = true := by
  induction g with
  | nil => simpa using hc
  | cons c t ih => simp [containsSubL, ih]

end Gitter

namespace Gitter

/-! ## Claims C7, C8, C10, C9 -/

/-- Claim C7: save after load is an identity round-trip — for every
persisted index that loads successfully, saving the loaded sequence and
loading again yields the identical ordered sequence of `IndexEntry`
records. -/
theorem C7_save_load_roundtrip (st : RepoState) (idx : List IndexEntry)
    (_h : LoadIndex st = .ok idx) :
    LoadIndex (SaveIndex st idx) = .ok idx :=
  LoadIndex_SaveIndex st idx

/-- Witness for C7 on the index sequence of `TestLoadAndSaveIndex`. -/
theorem C7_witness :
    LoadIndex exIdxSt = .ok exIdxList ∧
    LoadIndex (SaveIndex exIdxSt exIdxList) = .ok exIdxList :=
  ⟨by rfl, C7_save_load_roundtrip exIdxSt exIdxList (by rfl)⟩

/-- Claim C8: `add` on an argument with no `*` that names no existing
file or directory returns success, skips silently, and the persisted
index (and the rest of the state) keeps exactly the same entries. -/
theorem C8_add_missing_file (st : RepoState) (filePath : String)
    (idx : List IndexEntry)
    (hg : strContains filePath "*" = false)
    (hnf : st.working.lookup filePath = none)
    (hnd : st.workingDirs.contains filePath = false)
    (hl : LoadIndex st = .ok idx) :
    (AddFile st filePath).2 = none ∧
    LoadIndex (AddFile st filePath).1 = .ok idx ∧
    (AddFile st filePath).1.objects = st.objects ∧
    (AddFile st filePath).1.working = st.working := by
  have hnd' : filePath ∉ st.workingDirs := by simpa using hnd
  simp only [AddFile, hg, Bool.false_eq_true, if_false, hl]
  simp [addLoop, hnf, hnd', LoadIndex, SaveIndex, parseIndexS_marshal]

/-- Witness for C8: adding `missing.txt` to the fixture repository. -/
theorem C8_witness :
    (AddFile exSt0 "missing.txt").2 = none ∧
    LoadIndex (AddFile exSt0 "missing.txt").1 = .ok [] ∧
    (AddFile exSt0 "missing.txt").1.objects = exSt0.objects ∧
    (AddFile exSt0 "missing.txt").1.working = exSt0.working :=
  C8_add_missing_file exSt0 "missing.txt" [] (by decide) (by decide)
    (by decide) (by rfl)

/-- Claim C10: `add` on a `*`-free argument naming an existing directory
is not skipped (the existence check passes), fails when hashing the
directory, and leaves the whole state — in particular the persisted
index — unchanged, the error occurring before the index is saved. -/
theorem C10_add_directory (st : RepoState) (dir : String)
    (idx : List IndexEntry)
    (hg : strContains dir "*" = false)
    (hnf : st.working.lookup dir = none)
    (hd : st.workingDirs.contains dir = true)
    (hl : LoadIndex st = .ok idx) :
    (AddFile st dir).1 = st ∧ ∃ e, (AddFile st dir).2 = some e := by
  have hd' : dir ∈ st.workingDirs := by simpa using hd
  simp only [AddFile, hg, Bool.false_eq_true, if_false, hl]
  simp [addLoop, hnf, hd']

/-- Witness for C10: adding a directory named `docs`. -/
theorem C10_witness :
    (AddFile (initState [] ["docs"]) "docs").1 = initState [] ["docs"] ∧
    ∃ e, (AddFile (initState [] ["docs"]) "docs").2 = some e :=
  C10_add_directory (initState [] ["docs"]) "docs" [] (by decide) (by decide)
    (by decide) (by rfl)

theorem strContains_join (w p n : String)
    (h : strContains p n = true) : strContains (joinPath w p) n = true := by
  have hd : (joinPath w p).data = (w ++ "/").data ++ p.data := by
    simp [joinPath, String.data_append]
  rw [strContains, hd]
  exact containsSubL_append_right _ _ _ h

/-- Claim C9: a path containing the substring `.gitter` is excluded from
the working-tree walks of status, diff with an empty argument, and the
commit `-a` restaging; consequently such a path is never classified as
not-staged or untracked, is never a diff candidate, is never restaged by
commit `-a`, and (when, as for an ordinary working-tree file, it has no
index entry) never appears in the staged bucket either. -/
theorem C9_gitter_excluded (repo : Repository) (st : RepoState) (p : String)
    (hp : strContains p GITTER_DIR = true) :
    p ∉ (walkFiles repo st).map (·.1) ∧
    p ∉ diffCandidates repo st ∧
    (∀ idx, p ∉ commitAllCandidates repo st idx) ∧
    (∀ idx,
      p ∉ (statusBuckets idx
        ((walkFiles repo st).map (fun pr => (pr.1, hashFile pr.2)))).2.1 ∧
      p ∉ (statusBuckets idx
        ((walkFiles repo st).map (fun pr => (pr.1, hashFile pr.2)))).2.2 ∧
      ((∀ e ∈ idx, e.FilePath ≠ p) →
        p ∉ (statusBuckets idx
          ((walkFiles repo st).map (fun pr => (pr.1, hashFile pr.2)))).1)) := by
  have hwalk : p ∉ (walkFiles repo st).map (·.1) := by
    intro hmem
    obtain ⟨pr, hpr, rfl⟩ := List.mem_map.1 hmem
    have := (List.mem_filter.1 hpr).2
    rw [strContains_join repo.WorkingDir pr.1 GITTER_DIR hp] at this
    simp at this
  have hwf : ∀ pr ∈ (walkFiles repo st).map (fun pr => (pr.1, hashFile pr.2)),
      pr.1 ≠ p := by
    intro pr hpr hEq
    obtain ⟨q, hq, hE⟩ := List.mem_map.1 hpr
    exact hwalk (List.mem_map.2 ⟨q, hq, by rw [← hEq, ← hE]⟩)
  refine ⟨hwalk, hwalk, fun idx hmem => hwalk (List.mem_of_mem_filter hmem),
    fun idx => ⟨?_, ?_, ?_⟩⟩
  · intro hmem
    simp only [statusBuckets] at hmem
    obtain ⟨pr, hpr, rfl⟩ := List.mem_map.1 hmem
    exact hwf pr (List.mem_of_mem_filter hpr) rfl
  · intro hmem
    simp only [statusBuckets] at hmem
    obtain ⟨pr, hpr, rfl⟩ := List.mem_map.1 hmem
    exact hwf pr (List.mem_of_mem_filter hpr) rfl
  · intro hni hmem
    simp only [statusBuckets] at hmem
    obtain ⟨e, he, rfl⟩ := List.mem_map.1 hmem
    exact hni e (List.mem_of_mem_filter he) rfl

/-- Witness for C9: `notes.gitter.txt` in the working tree. -/
theorem C9_witness :
    "notes.gitter.txt" ∉
      (walkFiles exRepo (initState [("notes.gitter.txt", "x")] [])).map (·.1) ∧
    "notes.gitter.txt" ∉
      diffCandidates exRepo (initState [("notes.gitter.txt", "x")] []) := by
  have h := C9_gitter_excluded exRepo (initState [("notes.gitter.txt", "x")] [])
    "notes.gitter.txt" (by decide)
  exact ⟨h.1, h.2.1⟩

end Gitter

namespace Gitter

/-! ## Claim C5: the status classification -/

theorem lookupEntry_none_iff (idx : List IndexEntry) (p : String) :
    lookupEntry idx p = none ↔ ∀ e ∈ idx, e.FilePath ≠ p := by
  rw [lookupEntry, List.getLast?_eq_none_iff, List.filter_eq_nil_iff]
  constructor
  · intro h e he hp
    exact h e he (by simp [hp])
  · intro h e he hd
    exact h e he (by simpa using hd)

theorem lookupEntry_some_iff (idx : List IndexEntry)
    (hnd : (idx.map (·.FilePath)).Nodup) (p : String) (e : IndexEntry) :
    lookupEntry idx p = some e ↔ (e ∈ idx ∧ e.FilePath = p) := by
  induction idx with
  | nil => simp [lookupEntry]
  | cons a t ih =>
    rw [List.map_cons, List.nodup_cons] at hnd
    obtain ⟨ha, hnd'⟩ := hnd
    by_cases hqa : a.FilePath = p
    · have hflt : t.filter (fun e => decide (e.FilePath = p)) = [] := by
        rw [List.filter_eq_nil_iff]
        intro e' he' hd
        have hfp : e'.FilePath = p := by simpa using hd
        exact ha (List.mem_map.2 ⟨e', he', by rw [hfp, hqa]⟩)
      rw [lookupEntry]
      rw [List.filter_cons_of_pos (by simpa using hqa), hflt]
      constructor
      · intro h
        have hae : a = e := by simpa using h
        exact ⟨by rw [← hae]; exact List.mem_cons_self a t, by rw [← hae, hqa]⟩
      · rintro ⟨hm, hfp⟩
        rcases List.mem_cons.1 hm with rfl | hm
        · simp
        · exact absurd (List.mem_map.2 ⟨e, hm, by rw [hfp, hqa]⟩) ha
    · rw [lookupEntry, List.filter_cons_of_neg (by simpa using hqa)]
      rw [lookupEntry] at ih
      rw [ih hnd']
      constructor
      · rintro ⟨hm, hfp⟩
        exact ⟨List.mem_cons_of_mem a hm, hfp⟩
      · rintro ⟨hm, hfp⟩
        rcases List.mem_cons.1 hm with rfl | hm
        · exact absurd hfp hqa
        · exact ⟨hm, hfp⟩

theorem lookup_pair_some_iff (wf : List (String × String))
    (hwf : (wf.map (·.1)).Nodup) (p v : String) :
    wf.lookup p = some v ↔ (p, v) ∈ wf := by
  induction wf with
  | nil => simp [List.lookup]
  | cons a t ih =>
    rw [List.map_cons, List.nodup_cons] at hwf
    obtain ⟨ha, hnd'⟩ := hwf
    rw [List.lookup]
    by_cases hpa : p = a.1
    · simp only [hpa, beq_self_eq_true]
      constructor
      · intro h
        have hv : a.2 = v := by simpa using h
        rw [← hv]
        simp
      · intro hm
        rcases List.mem_cons.1 hm with h | hm
        · rw [← h]
        · exact absurd (List.mem_map.2 ⟨(a.1, v), hm, rfl⟩) ha
    · have hb : (p == a.1) = false := by simpa using hpa
      rw [hb]
      rw [ih hnd']
      constructor
      · intro hm
        exact List.mem_cons_of_mem a hm
      · intro hm
        rcases List.mem_cons.1 hm with h | hm
        · exact absurd (congrArg Prod.fst h) hpa
        · exact hm

theorem lookup_pair_none_iff (wf : List (String × String)) (p : String) :
    wf.lookup p = none ↔ ∀ pr ∈ wf, pr.1 ≠ p := by
  induction wf with
  | nil => simp [List.lookup]
  | cons a t ih =>
    rw [List.lookup]
    by_cases hpa : p = a.1
    · simp only [hpa, beq_self_eq_true]
      simp
    · have hb : (p == a.1) = false := by simpa using hpa
      rw [hb, ih]
      constructor
      · intro h pr hm
        rcases List.mem_cons.1 hm with rfl | hm
        · exact fun hEq => hpa hEq.symm
        · exact h pr hm
      · intro h pr hm
        exact h pr (List.mem_cons_of_mem a hm)

/-- Claim C5: status puts each path in at most one bucket — an index
entry with `staged == true` is in the staged bucket regardless of
working-tree content; a working path is in the not-staged bucket exactly
when its entry has `staged == false` and a recorded hash differing from
the current digest; a working path with no entry is untracked; and the
three buckets are pairwise disjoint. -/
theorem C5_status_buckets (idx : List IndexEntry) (wf : List (String × String))
    (hnd : (idx.map (·.FilePath)).Nodup) (hwf : (wf.map (·.1)).Nodup)
    (p : String) :
    (p ∈ (statusBuckets idx wf).1 ↔
      ∃ e ∈ idx, e.FilePath = p ∧ e.Modified = true) ∧
    (p ∈ (statusBuckets idx wf).2.1 ↔
      ∃ h e, wf.lookup p = some h ∧ lookupEntry idx p = some e ∧
        e.Modified = false ∧ e.Hash ≠ h) ∧
    (p ∈ (statusBuckets idx wf).2.2 ↔
      (wf.lookup p).isSome ∧ lookupEntry idx p = none) ∧
    (p ∈ (statusBuckets idx wf).1 →
      p ∉ (statusBuckets idx wf).2.1 ∧ p ∉ (statusBuckets idx wf).2.2) ∧
    (p ∈ (statusBuckets idx wf).2.1 → p ∉ (statusBuckets idx wf).2.2) := by
  have hstaged : p ∈ (statusBuckets idx wf).1 ↔
      ∃ e ∈ idx, e.FilePath = p ∧ e.Modified = true := by
    simp only [statusBuckets, List.mem_map, List.mem_filter]
    constructor
    · rintro ⟨e, ⟨he, hm⟩, rfl⟩
      exact ⟨e, he, rfl, hm⟩
    · rintro ⟨e, he, rfl, hm⟩
      exact ⟨e, ⟨he, hm⟩, rfl⟩
  have hns : p ∈ (statusBuckets idx wf).2.1 ↔
      ∃ h e, wf.lookup p = some h ∧ lookupEntry idx p = some e ∧
        e.Modified = false ∧ e.Hash ≠ h := by
    simp only [statusBuckets, List.mem_map, List.mem_filter]
    constructor
    · rintro ⟨pr, ⟨hpr, hcond⟩, rfl⟩
      rcases hle : lookupEntry idx pr.1 with _ | e
      · rw [hle] at hcond; simp at hcond
      · rw [hle] at hcond
        simp only [Bool.and_eq_true, Bool.not_eq_true', bne_iff_ne] at hcond
        exact ⟨pr.2, e, (lookup_pair_some_iff wf hwf pr.1 pr.2).2
            (by rcases pr with ⟨p1, p2⟩; exact hpr),
          rfl, hcond.1, hcond.2⟩
    · rintro ⟨h, e, hlk, hle, hm, hh⟩
      refine ⟨(p, h), ⟨(lookup_pair_some_iff wf hwf p h).1 hlk, ?_⟩, rfl⟩
      dsimp only
      rw [hle]
      simp [hm, hh]
  have hut : p ∈ (statusBuckets idx wf).2.2 ↔
      (wf.lookup p).isSome ∧ lookupEntry idx p = none := by
    simp only [statusBuckets, List.mem_map, List.mem_filter]
    constructor
    · rintro ⟨pr, ⟨hpr, hcond⟩, rfl⟩
      refine ⟨?_, by simpa using hcond⟩
      rw [(lookup_pair_some_iff wf hwf pr.1 pr.2).2
        (by rcases pr with ⟨p1, p2⟩; exact hpr)]
      rfl
    · rintro ⟨hlk, hle⟩
      rcases hs : wf.lookup p with _ | v
      · rw [hs] at hlk; simp at hlk
      · exact ⟨(p, v), ⟨(lookup_pair_some_iff wf hwf p v).1 hs,
          by dsimp only; rw [hle]; rfl⟩, rfl⟩
  refine ⟨hstaged, hns, hut, ?_, ?_⟩
  · intro hst
    obtain ⟨e, he, hfp, hm⟩ := hstaged.1 hst
    constructor
    · intro hns'
      obtain ⟨h, e', _, hle, hm', _⟩ := hns.1 hns'
      have hee : e = e' := by
        have h1 := (lookupEntry_some_iff idx hnd p e).2 ⟨he, hfp⟩
        rw [h1] at hle
        exact Option.some.inj hle
      rw [← hee, hm] at hm'
      exact Bool.noConfusion hm'
    · intro hut'
      obtain ⟨_, hle⟩ := hut.1 hut'
      exact ((lookupEntry_none_iff idx p).1 hle) e he hfp
  · intro hns' hut'
    obtain ⟨h, e, _, hle, _, _⟩ := hns.1 hns'
    obtain ⟨_, hle'⟩ := hut.1 hut'
    rw [hle] at hle'
    exact Option.noConfusion hle'

/-- Witness for C5 on the mixed-state scenario of `TestShowStatus`. -/
theorem C5_witness :
    ("staged.txt" ∈ (statusBuckets
        [⟨"staged.txt", "h1", true⟩, ⟨"tracked.txt", "h2", false⟩]
        [("staged.txt", "h1"), ("tracked.txt", "h3"), ("untracked.txt", "h4")]).1 ↔
      ∃ e ∈ [(⟨"staged.txt", "h1", true⟩ : IndexEntry),
             ⟨"tracked.txt", "h2", false⟩], e.FilePath = "staged.txt" ∧
        e.Modified = true) ∧
    ("staged.txt" ∈ (statusBuckets
        [⟨"staged.txt", "h1", true⟩, ⟨"tracked.txt", "h2", false⟩]
        [("staged.txt", "h1"), ("tracked.txt", "h3"), ("untracked.txt", "h4")]).1 →
      "staged.txt" ∉ (statusBuckets
        [⟨"staged.txt", "h1", true⟩, ⟨"tracked.txt", "h2", false⟩]
        [("staged.txt", "h1"), ("tracked.txt", "h3"), ("untracked.txt", "h4")]).2.1 ∧
      "staged.txt" ∉ (statusBuckets
        [⟨"staged.txt", "h1", true⟩, ⟨"tracked.txt", "h2", false⟩]
        [("staged.txt", "h1"), ("tracked.txt", "h3"), ("untracked.txt", "h4")]).2.2) := by
  have h := C5_status_buckets
    [⟨"staged.txt", "h1", true⟩, ⟨"tracked.txt", "h2", false⟩]
    [("staged.txt", "h1"), ("tracked.txt", "h3"), ("untracked.txt", "h4")]
    (by decide) (by decide) "staged.txt"
  exact ⟨h.1, h.2.2.2.1⟩

/-! ## Claim C6: the log traversal -/

theorem foldl_append_str (l : List String) :
    ∀ a b : String, a ++ l.foldl (· ++ ·) b = l.foldl (· ++ ·) (a ++ b) := by
  induction l with
  | nil => intro a b; rfl
  | cons c t ih =>
    intro a b
    simp only [List.foldl_cons]
    rw [ih, String.append_assoc]

theorem showLogLoop_chain (st : RepoState) :
    ∀ (chain : List Commit) (h : String) (fuel : Nat), h ≠ "" →
      linkedChain st h chain = true → chain.length ≤ fuel →
      showLogLoop st fuel h = (String.join (chain.map commitBlock), none) := by
  intro chain
  induction chain with
  | nil =>
    intro h fuel _ hlc _
    rw [linkedChain.eq_def] at hlc
    simp at hlc
  | cons c rest ih =>
    intro h fuel hne hlc hlen
    obtain ⟨f', rfl⟩ : ∃ f', fuel = f' + 1 :=
      ⟨fuel - 1, by simp at hlen; omega⟩
    rw [linkedChain.eq_def] at hlc
    simp only [Bool.and_eq_true, decide_eq_true_eq] at hlc
    obtain ⟨hro, hrest⟩ := hlc
    rw [showLogLoop]
    simp only [if_neg hne, hro, parseCommitS_marshal]
    cases rest with
    | nil =>
      have hpar : c.Parent = "" := by simpa using hrest
      rw [hpar]
      cases f' with
      | zero => simp [showLogLoop, String.join]
      | succ f'' => simp [showLogLoop, String.join]
    | cons c2 rest2 =>
      simp only [Bool.and_eq_true, decide_eq_true_eq] at hrest
      obtain ⟨hpne, hlc2⟩ := hrest
      rw [ih c.Parent f' hpne hlc2 (by simp at hlen ⊢; omega)]
      simp only [String.join, List.map_cons, List.foldl_cons, String.append_empty,
        Prod.mk.injEq, and_true]
      exact foldl_append_str _ _ _

/-- Claim C6: `log` with an empty HEAD prints exactly "No commits yet"
and nothing else; with a non-empty HEAD it walks strictly backward along
parent pointers, printing for each record in the chain its hash field,
author, formatted date and message (via `commitBlock`), most recent
first, stopping exactly at the record whose parent hash is empty. -/
theorem C6_log (st : RepoState) (fuel : Nat) :
    (GetCurrentHead st = "" → ShowLog st fuel = ("No commits yet\n", none)) ∧
    (∀ chain, GetCurrentHead st ≠ "" →
      linkedChain st (GetCurrentHead st) chain = true →
      chain.length ≤ fuel →
      ShowLog st fuel = (String.join (chain.map commitBlock), none)) := by
  constructor
  · intro h
    simp [ShowLog, h]
  · intro chain hne hlc hlen
    rw [ShowLog]
    simp only [if_neg hne]
    exact showLogLoop_chain st chain (GetCurrentHead st) fuel hne hlc hlen

/-- Witness for C6 on a hand-built two-commit chain. -/
theorem C6_witness :
    ShowLog exLogSt 5 =
      (String.join ([exLogCommit2, exLogCommit1].map commitBlock), none) :=
  (C6_log exLogSt 5).2 [exLogCommit2, exLogCommit1] (by decide) (by decide)
    (by decide)

end Gitter

namespace Gitter

/-! ## The success shape of `CommitChanges` -/

theorem GetCurrentHead_eq (st : RepoState) (h : String)
    (hr : st.headRef = some (h ++ "\n"))
    (hs : ∀ c ∈ h.data, isSpaceGo c = false) :
    GetCurrentHead st = h := by
  simp [GetCurrentHead, hr, trimSpace_append_nl h hs]

theorem commitFinish_eq (st1 : RepoState) (msg now : String)
    (index staged : List IndexEntry) :
    commitFinish st1 msg now index staged =
      ({ working := st1.working, workingDirs := st1.workingDirs,
         objects :=
           (CalculateHash (marshalCommitS (commitRecordOf st1 msg now staged)),
            marshalCommitS (commitRecordOf st1 msg now staged)) ::
           (CalculateHash (marshalIndexS staged), marshalIndexS staged) ::
           st1.objects,
         indexData :=
           marshalIndexS (index.map (fun e => { e with Modified := false })),
         headRef :=
           some (CalculateHash (marshalCommitS (commitRecordOf st1 msg now staged))
             ++ "\n"),
         logData := st1.logData ++
           CalculateHash (marshalCommitS (commitRecordOf st1 msg now staged))
             ++ "\n" },
       "[main " ++
         (CalculateHash (marshalCommitS (commitRecordOf st1 msg now staged))).take 7
         ++ "] " ++ msg ++ "\n",
       none) := rfl

theorem CommitChanges_success_shape (repo : Repository) (st : RepoState)
    (msg : String) (all : Bool) (now : String) (st' : RepoState) (out : String)
    (h : CommitChanges repo st msg all now = (st', out, none)) :
    ∃ idx0 st1 index, LoadIndex st = .ok idx0 ∧
      commitStagePhase repo st all idx0 = (st1, none) ∧
      commitReload st1 all idx0 = .ok index ∧
      index.filter (·.Modified) ≠ [] ∧
      (st', out, (none : Option String)) =
        commitFinish st1 msg now index (index.filter (·.Modified)) := by
  rw [CommitChanges] at h
  split at h
  · simp at h
  · rename_i idx0 hl
    split at h
    · simp at h
    · rename_i hmatch st1 hsp
      split at h
      · simp at h
      · rename_i index hrl
        split at h
        · simp at h
        · rename_i hemp
          refine ⟨idx0, st1, index, hl, hsp, hrl, ?_, h.symm⟩
          intro hnil
          exact hemp (by rw [hnil]; rfl)

/-! ## Claim C1 (corrected) -/

set_option maxRecDepth 1000000 in
set_option maxHeartbeats 2000000 in
/-- Counterexample to C1 as stated: in the fixture commit, the operation
succeeds, yet the record persisted under the new HEAD has an *empty*
hash field (the claim says it is populated and non-empty), and
re-hashing the persisted bytes *does* reproduce the object's file name
(the claim says it cannot). -/
theorem C1_counterexample :
    exCommitRes.2.2 = none ∧
    ((readObject exSt1 (GetCurrentHead exSt1)).bind parseCommitS).map
        (fun c => c.Hash) = some "" ∧
    (readObject exSt1 (GetCurrentHead exSt1)).map CalculateHash =
      some (GetCurrentHead exSt1) := by
  refine ⟨by decide, by decide, by decide⟩

/-- Claim C1 as amended: the commit digest is computed over the record
serialized with its hash field empty, the digest names the object, and
the bytes persisted are exactly that hash-empty serialization — so the
persisted record's hash field is empty and re-hashing the persisted
bytes reproduces the object's file name. -/
theorem C1_commit_hash (repo : Repository) (st : RepoState) (msg : String)
    (all : Bool) (now : String) (st' : RepoState) (out : String)
    (h : CommitChanges repo st msg all now = (st', out, none)) :
    ∃ c : Commit, c.Hash = "" ∧
      GetCurrentHead st' = CalculateHash (marshalCommitS c) ∧
      readObject st' (GetCurrentHead st') = some (marshalCommitS c) ∧
      parseCommitS (marshalCommitS c) = some c := by
  obtain ⟨idx0, st1, index, _, _, _, _, hfin⟩ :=
    CommitChanges_success_shape repo st msg all now st' out h
  rw [commitFinish_eq, Prod.mk.injEq] at hfin
  have hst' := hfin.1
  have hhead : GetCurrentHead st' =
      CalculateHash (marshalCommitS
        (commitRecordOf st1 msg now (index.filter (·.Modified)))) := by
    rw [hst']
    exact GetCurrentHead_eq _ _ rfl (CalculateHash_no_space _)
  refine ⟨commitRecordOf st1 msg now (index.filter (·.Modified)), rfl, hhead, ?_,
    parseCommitS_marshal _⟩
  rw [hhead, hst']
  simp [readObject, List.lookup]

set_option maxRecDepth 1000000 in
set_option maxHeartbeats 2000000 in
/-- Witness for the amended C1 at the fixture commit. -/
theorem C1_witness :
    ∃ c : Commit, c.Hash = "" ∧
      GetCurrentHead exSt1 = CalculateHash (marshalCommitS c) ∧
      readObject exSt1 (GetCurrentHead exSt1) = some (marshalCommitS c) ∧
      parseCommitS (marshalCommitS c) = some c :=
  C1_commit_hash exRepo exStAdded "Initial commit" false exNow exSt1
    exCommitRes.2.1 (by decide)

/-! ## Claim C3 -/

/-- Claim C3: every successful commit serializes the staged entries,
stores that serialization as an object named by its digest, records the
digest as the commit's `tree_hash`, and the stored tree bytes
deserialize back to the staged entries (provided the commit object's
name does not collide with the tree's — the spec assumes digest
collisions do not occur). -/
theorem C3_tree_stored (repo : Repository) (st : RepoState) (msg : String)
    (all : Bool) (now : String) (st' : RepoState) (out : String)
    (h : CommitChanges repo st msg all now = (st', out, none)) :
    ∃ (staged : List IndexEntry) (c : Commit),
      staged ≠ [] ∧
      c.TreeHash = CalculateHash (marshalIndexS staged) ∧
      readObject st' (GetCurrentHead st') = some (marshalCommitS c) ∧
      (GetCurrentHead st' ≠ c.TreeHash →
        readObject st' c.TreeHash = some (marshalIndexS staged)) ∧
      parseIndexS (marshalIndexS staged) = some staged ∧
      (all = false → ∀ idx0', LoadIndex st = .ok idx0' →
        staged = idx0'.filter (·.Modified)) := by
  obtain ⟨idx0, st1, index, hl, hsp, hrl, hne, hfin⟩ :=
    CommitChanges_success_shape repo st msg all now st' out h
  rw [commitFinish_eq, Prod.mk.injEq] at hfin
  have hst' := hfin.1
  have hhead : GetCurrentHead st' =
      CalculateHash (marshalCommitS
        (commitRecordOf st1 msg now (index.filter (·.Modified)))) := by
    rw [hst']
    exact GetCurrentHead_eq _ _ rfl (CalculateHash_no_space _)
  refine ⟨index.filter (·.Modified),
    commitRecordOf st1 msg now (index.filter (·.Modified)), hne, rfl, ?_, ?_,
    parseIndexS_marshal _, ?_⟩
  · rw [hhead, hst']
    simp [readObject, List.lookup]
  · intro hne2
    rw [hhead] at hne2
    have htree : (commitRecordOf st1 msg now (index.filter (·.Modified))).TreeHash =
        CalculateHash (marshalIndexS (index.filter (·.Modified))) := rfl
    have hb : (CalculateHash (marshalIndexS (index.filter (·.Modified))) ==
        CalculateHash (marshalCommitS
          (commitRecordOf st1 msg now (index.filter (·.Modified))))) = false := by
      rw [htree] at hne2
      exact beq_eq_false_iff_ne.2 (fun hEq => hne2 hEq.symm)
    rw [hst', htree]
    simp [readObject, List.lookup, hb]
  · intro hallf idx0' hl'
    rw [hallf, commitReload] at hrl
    simp only [Bool.false_eq_true, if_false] at hrl
    rw [hl] at hl'
    have hid : idx0' = idx0 := by injection hl'.symm
    have hidx : index = idx0 := by injection hrl with hh; exact hh.symm
    rw [hid, hidx]

set_option maxRecDepth 1000000 in
set_option maxHeartbeats 2000000 in
/-- Witness for C3 at the fixture commit. -/
theorem C3_witness :
    ∃ (staged : List IndexEntry) (c : Commit),
      staged ≠ [] ∧
      c.TreeHash = CalculateHash (marshalIndexS staged) ∧
      readObject exSt1 (GetCurrentHead exSt1) = some (marshalCommitS c) ∧
      (GetCurrentHead exSt1 ≠ c.TreeHash →
        readObject exSt1 c.TreeHash = some (marshalIndexS staged)) ∧
      parseIndexS (marshalIndexS staged) = some staged ∧
      (false = false → ∀ idx0', LoadIndex exStAdded = .ok idx0' →
        staged = idx0'.filter (·.Modified)) :=
  C3_tree_stored exRepo exStAdded "Initial commit" false exNow exSt1
    exCommitRes.2.1 (by decide)

end Gitter

namespace Gitter

/-! ## Claim C4: NothingToCommit -/

theorem LoadIndex_of_indexData (st : RepoState) (l : List IndexEntry)
    (h : st.indexData = marshalIndexS l) : LoadIndex st = .ok l := by
  simp [LoadIndex, h, parseIndexS_marshal]

theorem upsertEntry_mem_modified (idx : List IndexEntry) (p h : String) :
    ∃ e ∈ upsertEntry idx p h, e.Modified = true := by
  induction idx with
  | nil => exact ⟨⟨p, h, true⟩, by simp [upsertEntry]⟩
  | cons a t ih =>
    rw [upsertEntry]
    by_cases hfp : a.FilePath = p
    · rw [if_pos hfp]
      exact ⟨{ a with Hash := h, Modified := true }, by simp⟩
    · rw [if_neg hfp]
      obtain ⟨e, he, hm⟩ := ih
      exact ⟨e, List.mem_cons_of_mem a he, hm⟩

theorem lookup_isSome_of_key_mem (l : List (String × String)) (p : String)
    (h : ∃ pr ∈ l, pr.1 = p) : (l.lookup p).isSome = true := by
  induction l with
  | nil => simp at h
  | cons a t ih =>
    rw [List.lookup]
    by_cases hpa : p = a.1
    · simp [hpa]
    · have hb : (p == a.1) = false := by simpa using hpa
      rw [hb]
      obtain ⟨pr, hm, hp⟩ := h
      rcases List.mem_cons.1 hm with rfl | hm
      · exact absurd hp.symm hpa
      · exact ih ⟨pr, hm, hp⟩

theorem AddFile_file_eq (st : RepoState) (p c : String)
    (hstar : strContains p "*" = false)
    (hc : st.working.lookup p = some c)
    (idx : List IndexEntry) (hl : LoadIndex st = .ok idx) :
    AddFile st p = (SaveIndex (writeObject st (hashFile c) c)
      (upsertEntry idx p (hashFile c)), none) := by
  simp only [AddFile, hstar, Bool.false_eq_true, if_false, hl]
  simp [addLoop, hc]

theorem stageLoop_spec :
    ∀ (ps : List String) (st : RepoState) (idx : List IndexEntry),
      (∀ p ∈ ps, (st.working.lookup p).isSome = true ∧
        strContains p "*" = false) →
      LoadIndex st = .ok idx →
      ∃ st1 idx1, stageLoop st ps = (st1, none) ∧ LoadIndex st1 = .ok idx1 ∧
        st1.working = st.working ∧
        (ps = [] → st1 = st ∧ idx1 = idx) ∧
        (ps ≠ [] → ∃ e ∈ idx1, e.Modified = true) := by
  intro ps
  induction ps with
  | nil =>
    intro st idx _ hl
    exact ⟨st, idx, rfl, hl, rfl, fun _ => ⟨rfl, rfl⟩, by simp⟩
  | cons p rest ih =>
    intro st idx hps hl
    obtain ⟨hsome, hstar⟩ := hps p (by simp)
    rcases hc : st.working.lookup p with _ | c
    · rw [hc] at hsome; simp at hsome
    · have haf := AddFile_file_eq st p c hstar hc idx hl
      rw [stageLoop, haf]
      set st' := SaveIndex (writeObject st (hashFile c) c)
        (upsertEntry idx p (hashFile c)) with hst'
      have hw : st'.working = st.working := rfl
      have hl' : LoadIndex st' = .ok (upsertEntry idx p (hashFile c)) :=
        LoadIndex_SaveIndex _ _
      have hps' : ∀ q ∈ rest, (st'.working.lookup q).isSome = true ∧
          strContains q "*" = false := by
        intro q hq
        rw [hw]
        exact hps q (by simp [hq])
      obtain ⟨st1, idx1, hsl, hl1, hw1, hemp, hmod⟩ :=
        ih st' (upsertEntry idx p (hashFile c)) hps' hl'
      refine ⟨st1, idx1, hsl, hl1, by rw [hw1, hw], by simp, fun _ => ?_⟩
      cases rest with
      | nil =>
        obtain ⟨h1, h2⟩ := hemp rfl
        rw [h2]
        exact upsertEntry_mem_modified idx p (hashFile c)
      | cons q qs => exact hmod (by simp)

theorem commitAllCandidates_spec (repo : Repository) (st : RepoState)
    (idx : List IndexEntry)
    (hstar : ∀ pr ∈ st.working, strContains pr.1 "*" = false) :
    ∀ p ∈ commitAllCandidates repo st idx,
      (st.working.lookup p).isSome = true ∧ strContains p "*" = false := by
  intro p hp
  have hm : p ∈ (walkFiles repo st).map (·.1) := List.mem_of_mem_filter hp
  obtain ⟨pr, hpr, rfl⟩ := List.mem_map.1 hm
  have hw : pr ∈ st.working := List.mem_of_mem_filter hpr
  exact ⟨lookup_isSome_of_key_mem st.working pr.1 ⟨pr, hw, rfl⟩,
    hstar pr hw⟩

/-- Claim C4: commit fails with NothingToCommit exactly when the
(possibly reloaded) index has no `staged == true` entry; in that case
nothing is written (the returned state is the input state unchanged);
and after every successful commit every entry of the persisted index
has `staged == false`.  (Hypothesis: no working-tree path contains `*`,
which would make the Go re-`add` treat it as a glob pattern.) -/
theorem C4_nothing_to_commit (repo : Repository) (st : RepoState)
    (msg : String) (all : Bool) (now : String) (idx0 : List IndexEntry)
    (hl : LoadIndex st = .ok idx0)
    (hstar : ∀ pr ∈ st.working, strContains pr.1 "*" = false) :
    (∃ st1 idx1, commitStagePhase repo st all idx0 = (st1, none) ∧
      commitReload st1 all idx0 = .ok idx1 ∧
      (((CommitChanges repo st msg all now).2.2 = some "nothing to commit") ↔
        idx1.filter (·.Modified) = [])) ∧
    ((CommitChanges repo st msg all now).2.2 = some "nothing to commit" →
      (CommitChanges repo st msg all now).1 = st) ∧
    (∀ st' out, CommitChanges repo st msg all now = (st', out, none) →
      ∃ idxF, LoadIndex st' = .ok idxF ∧ ∀ e ∈ idxF, e.Modified = false) := by
  -- the stage phase and the reload never fail under the hypotheses
  have hphase : ∃ st1 idx1, commitStagePhase repo st all idx0 = (st1, none) ∧
      commitReload st1 all idx0 = .ok idx1 ∧
      (commitAllCandidates repo st idx0 = [] ∨ all = false → st1 = st) ∧
      (all = false → idx1 = idx0) ∧
      (all = true → commitAllCandidates repo st idx0 ≠ [] →
        ∃ e ∈ idx1, e.Modified = true) := by
    rcases hall : all with _ | _
    · exact ⟨st, idx0, rfl, rfl, fun _ => rfl, fun _ => rfl, by simp⟩
    · obtain ⟨st1, idx1, hsl, hl1, hw1, hemp, hmod⟩ :=
        stageLoop_spec (commitAllCandidates repo st idx0) st idx0
          (commitAllCandidates_spec repo st idx0 hstar) hl
      refine ⟨st1, idx1, by simp [commitStagePhase, hsl],
        by simp [commitReload, hl1], ?_, by simp, fun _ => hmod⟩
      rintro (hnil | hfalse)
      · exact (hemp hnil).1
      · exact absurd hfalse (by simp)
  obtain ⟨st1, idx1, hsp, hrl, hst1, hidx1f, hmod1⟩ := hphase
  have hcc : CommitChanges repo st msg all now =
      (if (idx1.filter (·.Modified)).isEmpty then
        (st1, "", some "nothing to commit")
       else commitFinish st1 msg now idx1 (idx1.filter (·.Modified))) := by
    rw [CommitChanges]
    simp only [hl, hsp, hrl]
  refine ⟨⟨st1, idx1, hsp, hrl, ?_⟩, ?_, ?_⟩
  · by_cases hB : (idx1.filter (·.Modified)).isEmpty = true
    · rw [hcc, if_pos hB]
      simp only [List.isEmpty_iff] at hB
      simp [hB]
    · rw [hcc, if_neg hB, commitFinish_eq]
      constructor
      · intro hfalse
        simp at hfalse
      · intro hnil
        exact absurd (by rw [hnil]; rfl) hB
  · intro herr
    rw [hcc] at herr ⊢
    by_cases hB : (idx1.filter (·.Modified)).isEmpty = true
    · rw [if_pos hB] at herr ⊢
      show st1 = st
      rcases hall : all with _ | _
      · exact hst1 (Or.inr hall)
      · by_cases hcand : commitAllCandidates repo st idx0 = []
        · exact hst1 (Or.inl hcand)
        · obtain ⟨e, he, hm⟩ := hmod1 hall hcand
          have hmem : e ∈ idx1.filter (·.Modified) := List.mem_filter.2 ⟨he, hm⟩
          rw [List.isEmpty_iff.1 hB] at hmem
          simp at hmem
    · rw [if_neg hB, commitFinish_eq] at herr
      simp at herr
  · intro st' out hsucc
    obtain ⟨idx0', st1', index, hl', hsp', hrl', hne', hfin⟩ :=
      CommitChanges_success_shape repo st msg all now st' out hsucc
    rw [commitFinish_eq, Prod.mk.injEq] at hfin
    refine ⟨index.map (fun e => { e with Modified := false }), ?_, ?_⟩
    · exact LoadIndex_of_indexData _ _ (by rw [hfin.1])
    · intro e he
      obtain ⟨e', _, rfl⟩ := List.mem_map.1 he
      rfl

/-- Witness for C4: committing on a freshly initialized repository fails
with "nothing to commit" and leaves the state unchanged. -/
theorem C4_witness :
    (CommitChanges exRepo (initState [] []) "m" false "t").1 =
      initState [] [] :=
  (C4_nothing_to_commit exRepo (initState [] []) "m" false "t" []
    (by rfl) (by decide)).2.1 (by decide)

end Gitter

namespace Gitter

/-! ## Claim C2: the diff's "before" content -/

set_option maxRecDepth 1000000 in
set_option maxHeartbeats 4000000 in
/-- Claim C2: the "before" content `showFileDiff` diffs against is the
blob whose digest the HEAD commit's tree snapshot records for that exact
path — and empty when the path has no entry in that tree; and in the
committed-then-edited fixture, `diff` prints the committed line as a
removal and the new line as an addition. -/
theorem C2_diff_before (st : RepoState) (commit : Commit) (filePath : String)
    (treeData : String) (files : List IndexEntry)
    (h1 : readObject st commit.TreeHash = some treeData)
    (h2 : parseIndexS treeData = some files) :
    ((∀ f, files.find? (fun e => e.FilePath = filePath) = some f →
        ∀ blob, readObject st f.Hash = some blob →
          headContentFor st commit filePath = blob) ∧
     (files.find? (fun e => e.FilePath = filePath) = none →
        headContentFor st commit filePath = "")) ∧
    (ShowDiff exRepo exStModified "").1 =
      "--- a/test.txt\n+++ b/test.txt\n@@ -1 +1 @@\n" ++
        "-original content\n+modified content\n" := by
  refine ⟨⟨?_, ?_⟩, by decide⟩
  · intro f hf blob hb
    simp [headContentFor, h1, h2, hf, hb]
  · intro hf
    simp [headContentFor, h1, h2, hf]

set_option maxRecDepth 1000000 in
set_option maxHeartbeats 4000000 in
/-- Witness for C2: in the fixture, the before content for `test.txt` is
the committed blob. -/
theorem C2_witness :
    headContentFor exSt1 exCommitRecord "test.txt" = "original content" :=
  ((C2_diff_before exSt1 exCommitRecord "test.txt" exTreeData exTreeFiles
      (by decide) (by decide)).1).1
    ⟨"test.txt", exBlobHash, true⟩ (by decide) "original content" (by decide)

end Gitter
